import Mathlib

/-!
Verification of the outline parser of `src/bin/parse.js` (functions
`parseOutline` and `parseSlideBlock`), shallowly embedded in Lean.

Texts are `List Char`; a line is the maximal run between `'\n'` characters
(the embedding treats `'\n'` as the sole line terminator, matching the
newline-delimited input format).  The JavaScript regular expressions used by
the parser are anchored, backtracking-free on their inputs, and are embedded
as the explicit character-list matchers below; each matcher's doc comment
records the regex it embeds and why the translation is exact.

The embedding is exact on carriage-return-free ASCII text.  ECMAScript
multiline anchors additionally treat CR, U+2028 and U+2029 as line
boundaries, and the ECMAScript whitespace class and `String.trim` also
cover NBSP, FEFF and further Unicode spaces; the one statement whose truth
could depend on this (the amended segmentation theorem `blocksOf_sepJoin`)
therefore carries an explicit `asciiNoCR` hypothesis confining it to the
exact domain, and the divergence is recorded at each definition it touches.
-/

namespace SlidesFactory

/-- Whitespace test matching the JavaScript `\s` class and `String.trim`
on the ASCII range (space, tab, newline, carriage return, vertical tab,
form feed).  The full JavaScript classes further contain NBSP, FEFF and
other Unicode spaces; the statement whose truth could depend on those
characters restricts its inputs to ASCII via `asciiNoCR`. -/
def isWs (c : Char) : Bool :=
  c = ' ' || c = '\t' || c = '\n' || c = '\r' || c = '\x0b' || c = '\x0c'

/-- Remove trailing whitespace. -/
def rtrim : List Char → List Char
  | [] => []
  | c :: rest =>
    match rtrim rest with
    | [] => if isWs c then [] else [c]
    | r => c :: r

/-- JavaScript `String.prototype.trim`: strip leading and trailing
whitespace. -/
def trimL (l : List Char) : List Char :=
  rtrim (l.dropWhile isWs)

/-- JavaScript `text.split('\n')`: `""` gives `[""]`, a trailing newline
gives a trailing empty line. -/
def splitLines : List Char → List (List Char)
  | [] => [[]]
  | c :: rest =>
    if c = '\n' then [] :: splitLines rest
    else
      match splitLines rest with
      | [] => [[c]]
      | l :: ls => (c :: l) :: ls

/-- Join lines with `'\n'`, the inverse of `splitLines`. -/
def joinNl : List (List Char) → List Char
  | [] => []
  | [l] => l
  | l :: ls => l ++ '\n' :: joinNl ls

/-- The slide separator line: the regex `/^---$/m` of `parse.js` line 75
matches exactly the lines equal to `---` — no surrounding whitespace.
Caveat: ECMAScript multiline anchors also match around a carriage
return, so in the source a `---` immediately followed by CR (e.g. in a
CRLF file) separates as well, which this newline-based model does not
see; the segmentation theorem `blocksOf_sepJoin` therefore restricts
its inputs to CR-free text. -/
def sepLine : List Char := ['-', '-', '-']

/-- Split a line list into the groups of lines between separator lines. -/
def splitSep : List (List Char) → List (List (List Char))
  | [] => [[]]
  | l :: rest =>
    if l = sepLine then [] :: splitSep rest
    else
      match splitSep rest with
      | [] => [[l]]
      | g :: gs => (l :: g) :: gs

/-- `parse.js` line 75: `text.split(/^---$/m).map(b => b.trim()).filter(Boolean)`.
Splitting the raw text at the separator lines and rejoining each group with
`'\n'` differs from the JavaScript split only by newline characters abutting
the separators, which the immediate `trim` removes in both versions, so on
carriage-return-free ASCII text the two agree block for block.  On text
containing CR or non-ASCII whitespace the source can split at additional
`---` occurrences (multiline anchors around CR) and can discard segments
that are Unicode-whitespace-only; `blocksOf_sepJoin` excludes such inputs
by hypothesis. -/
def blocksOf (text : List Char) : List (List Char) :=
  ((splitSep (splitLines text)).map (fun g => trimL (joinNl g))).filter
    (fun b => !b.isEmpty)

/-- The regex `/^#\s+(.+)$/` applied to one line, returning the captured
group already trimmed (the parser always trims the capture).  The regex
matches iff after `#` come a whitespace character and at least two
characters in total; the trimmed capture then equals the trim of the
remainder with its leading whitespace dropped (when the remainder is all
whitespace, backtracking leaves a single whitespace capture, which also
trims to the empty string).  On a line containing an interior CR this
matcher accepts where the non-multiline source regex rejects (`.` does
not cross a line terminator); lines of CR-free text are unaffected. -/
def matchH1 : List Char → Option (List Char)
  | '#' :: c :: d :: rest =>
    if isWs c then some (trimL (List.dropWhile isWs (c :: d :: rest))) else none
  | _ => none

/-- The regex `/^##\s+(.+)$/` applied to one line, trimmed capture,
same analysis as `matchH1`. -/
def matchH2 : List Char → Option (List Char)
  | '#' :: '#' :: c :: d :: rest =>
    if isWs c then some (trimL (List.dropWhile isWs (c :: d :: rest))) else none
  | _ => none

/-- The regex `/^#{1,2}\s+/` of `parse.js` line 96: one or two `#`
followed by whitespace. -/
def isHeadingMark : List Char → Bool
  | '#' :: '#' :: c :: _ => isWs c
  | '#' :: c :: _ => isWs c
  | _ => false

/-- The full-line regex `/^!\[([^\]]*)\]\(([^)]+)\)$/` of `parse.js`
line 157: alt text (no `]`, possibly empty), then `](`, then a nonempty
src with no `)`, then a final `)` ending the line.  Both character
classes are exclusive of their closing delimiter, so `takeWhile` is the
unique parse. -/
def matchImage (l : List Char) : Option (List Char × List Char) :=
  match l with
  | '!' :: '[' :: rest =>
    let alt := rest.takeWhile (· != ']')
    match rest.dropWhile (· != ']') with
    | ']' :: '(' :: rest2 =>
      let src := rest2.takeWhile (· != ')')
      if src ≠ [] ∧ rest2.dropWhile (· != ')') = [')'] then some (alt, src)
      else none
    | _ => none
  | _ => none

/-- The regex `/^(\s*)[-*]\s+(.+)$/` of `parse.js` line 176, applied to
the raw (un-trimmed) line.  Group 1 is the maximal leading whitespace
run; the bullet marker must be followed by a whitespace character and at
least two characters; the result is the level `indent / 2` (line 182,
`Math.floor` is truncating division on naturals) and the trimmed group-2
capture, computed as in `matchH1`.  As for `matchH1`, a line carrying a
CR is accepted here though the source regex rejects it; CR-free lines
are unaffected. -/
def matchBullet (l : List Char) : Option (Nat × List Char) :=
  match l.dropWhile isWs with
  | c :: d :: e :: rest =>
    if (c = '-' ∨ c = '*') ∧ isWs d then
      some ((l.takeWhile isWs).length / 2, trimL (List.dropWhile isWs (d :: e :: rest)))
    else none
  | _ => none

/-- The code-fence marker: three backticks. -/
def fenceMarker : List Char := ['\x60', '\x60', '\x60']

/-- `trimmed.startsWith('\x60\x60\x60')` of `parse.js` lines 189 and 200. -/
def startsFence (t : List Char) : Bool :=
  t.take 3 == fenceMarker

/-- The literal default language tag `text` (`parse.js` line 206). -/
def textTag : List Char := ['t', 'e', 'x', 't']

/-- `parse.js` lines 197 and 206: `const lang = trimmed.slice(3).trim()`
and `language: lang || 'text'`. -/
def fenceLang (t : List Char) : List Char :=
  let lang := trimL (t.drop 3)
  if lang = [] then textTag else lang

/-- A bullet item: `{ text, level }` (`parse.js` lines 180–183). -/
structure BulletItem where
  text : List Char
  level : Nat
deriving DecidableEq, Repr

/-- The four content block kinds emitted by `parseSlideBlock`:
`bullets` with its items, `image` with alt and src, `code` with language
and code text, and `text` (a paragraph) with its trimmed line. -/
inductive ContentBlock where
  | bullets (items : List BulletItem)
  | image (alt src : List Char)
  | code (language codeText : List Char)
  | text (txt : List Char)
deriving DecidableEq, Repr

/-- A slide: `{ title, content }` (`parse.js` lines 114–117). -/
structure Slide where
  title : List Char
  content : List ContentBlock
deriving DecidableEq, Repr

/-- The parser result object (`parse.js` lines 64–72): `title`,
`subtitle`, `theme: 'minimal'`, `timing.default: 5` and the slide list.
Every field is total: the JavaScript object always carries all of these
keys, with the string fields defaulting to the empty string. -/
structure Document where
  title : List Char
  subtitle : List Char
  theme : List Char
  timingDefault : Nat
  slides : List Slide
deriving DecidableEq, Repr

/-- Flush the pending bullet accumulation in front of `rest`
(`parse.js` lines 143–151 and the identical flush sites): a `bullets`
block is emitted only when at least one item is pending. -/
def flush (bs : List BulletItem) (rest : List ContentBlock) : List ContentBlock :=
  if bs = [] then rest else ContentBlock.bullets bs :: rest

/-- The content loop of `parseSlideBlock` (`parse.js` lines 136–234),
fuel-indexed so that the recursion is structural: each step consumes the
head line, and the code-fence step additionally consumes the fenced
lines and the closing fence, so `lines.length` fuel always suffices.
Branch order matches the source: blank line, image, bullet, code fence,
paragraph. -/
def parseContentF : Nat → List (List Char) → List BulletItem → List ContentBlock
  | _, [], bs => flush bs []
  | 0, _ :: _, bs => flush bs []
  | fuel + 1, l :: rest, bs =>
    if trimL l = [] then
      flush bs (parseContentF fuel rest [])
    else
      match matchImage (trimL l) with
      | some (alt, src) =>
        flush bs (ContentBlock.image alt src :: parseContentF fuel rest [])
      | none =>
        match matchBullet l with
        | some (lvl, txt) => parseContentF fuel rest (bs ++ [⟨txt, lvl⟩])
        | none =>
          if startsFence (trimL l) then
            flush bs (ContentBlock.code (fenceLang (trimL l))
                (joinNl (rest.takeWhile (fun l2 => !startsFence (trimL l2))))
              :: parseContentF fuel
                ((rest.dropWhile (fun l2 => !startsFence (trimL l2))).drop 1) [])
          else
            flush bs (ContentBlock.text (trimL l) :: parseContentF fuel rest [])

/-- The content loop at its natural fuel. -/
def parseContent (lines : List (List Char)) (bs : List BulletItem) : List ContentBlock :=
  parseContentF lines.length lines bs

/-- The title scan of `parseSlideBlock` (`parse.js` lines 122–133):
skip blank lines; the first trimmed line matching `/^#\s+(.+)$/` gives
the title (the source computes it as `line.replace(/^#\s+/, '').trim()`,
which on a matching trimmed line equals the trimmed capture returned by
`matchH1`); a non-blank non-matching line stops the scan and is
re-examined as content. -/
def findTitle : List (List Char) → List Char × List (List Char)
  | [] => ([], [])
  | l :: rest =>
    match matchH1 (trimL l) with
    | some cap => (cap, rest)
    | none =>
      if trimL l = [] then findTitle rest
      else ([], l :: rest)

/-- `parseSlideBlock` (`parse.js` lines 112–237). -/
def parseSlideBlock (block : List Char) : Slide :=
  let p := findTitle (splitLines block)
  ⟨p.1, parseContent p.2 []⟩

/-- Document title extraction from the first block (`parse.js` lines
83–87): the first line matching `/^#\s+(.+)$/m`, trimmed capture,
defaulting to the empty string.  The per-newline-line scan cannot see an
m-flag match beginning after a CR inside a newline-delimited line; on
CR-free text the scans coincide. -/
def docTitle (firstBlock : List Char) : List Char :=
  ((splitLines firstBlock).findSome? matchH1).getD []

/-- Document subtitle extraction (`parse.js` lines 84–91). -/
def docSubtitle (firstBlock : List Char) : List Char :=
  ((splitLines firstBlock).findSome? matchH2).getD []

/-- `parse.js` lines 94–97: every line of the first block with nonempty
trim matches `/^#{1,2}\s+/` (the `|| line.trim() === ''` disjunct is
unreachable after the filter). -/
def isTitleOnly (firstBlock : List Char) : Bool :=
  ((splitLines firstBlock).filter (fun l => !(trimL l).isEmpty)).all isHeadingMark

/-- The theme constant (`parse.js` line 67). -/
def themeName : List Char := ['m', 'i', 'n', 'i', 'm', 'a', 'l']

/-- `parseOutline` (`parse.js` lines 62–110).  Note that the source sets
`result.title` and `result.subtitle` from the first block before testing
whether that block is title-only, so the extraction happens in both
cases; only membership of the first block in the slide list depends on
the test.  `parseSlideBlock` always returns a (truthy) slide object, so
the `if (slide)` guard on line 104 never drops a block. -/
def parseOutline (text : List Char) : Document :=
  match blocksOf text with
  | [] => ⟨[], [], themeName, 5, []⟩
  | firstBlock :: restBlocks =>
    ⟨docTitle firstBlock, docSubtitle firstBlock, themeName, 5,
      (if isTitleOnly firstBlock then restBlocks
       else firstBlock :: restBlocks).map parseSlideBlock⟩

/-- `parse` on a Lean string literal. -/
def parse (s : String) : Document :=
  parseOutline s.data

/-- Well-formedness of a parsed document as the spec's data-model
invariant states it: no empty `BulletList` is ever emitted. -/
def wellFormedDoc (d : Document) : Prop :=
  ∀ s ∈ d.slides, ∀ c ∈ s.content, ∀ items, c = ContentBlock.bullets items → items ≠ []

/-- Join segments with lone `---` separator lines between them. -/
def sepJoin : List (List Char) → List Char
  | [] => []
  | [s] => s
  | s :: ss => s ++ '\n' :: (sepLine ++ '\n' :: sepJoin ss)

/-- A character on which the embedding coincides exactly with the
ECMAScript semantics of the source: ASCII and not a carriage return.
On such characters the multiline anchors of `/^---$/m` fire exactly at
`'\n'` boundaries (the other ECMAScript line terminators are CR, U+2028
and U+2029, all excluded) and `isWs` agrees with both the `\s` class
and `String.trim` (their members beyond ASCII are all non-ASCII). -/
def asciiNoCR (c : Char) : Bool :=
  c.toNat < 128 && c != '\r'

/-! ### Generic list lemmas -/

theorem dropWhile_length_le {α : Type} (p : α → Bool) (l : List α) :
    (l.dropWhile p).length ≤ l.length := by
  induction l with
  | nil => simp [List.dropWhile]
  | cons a l ih =>
    by_cases h : p a
    · simp only [List.dropWhile, h]
      exact Nat.le_succ_of_le ih
    · simp [List.dropWhile, h]

theorem takeWhile_eq_self {α : Type} {p : α → Bool} {xs : List α}
    (h : ∀ x ∈ xs, p x = true) : xs.takeWhile p = xs := by
  induction xs with
  | nil => rfl
  | cons a l ih =>
    simp only [List.takeWhile, h a (List.mem_cons_self a l)]
    exact congrArg (a :: ·) (ih fun x hx => h x (List.mem_cons_of_mem a hx))

theorem dropWhile_eq_nil_of_all {α : Type} {p : α → Bool} {xs : List α}
    (h : ∀ x ∈ xs, p x = true) : xs.dropWhile p = [] := by
  induction xs with
  | nil => rfl
  | cons a l ih =>
    simp only [List.dropWhile, h a (List.mem_cons_self a l)]
    exact ih fun x hx => h x (List.mem_cons_of_mem a hx)

theorem takeWhile_append_cons {α : Type} {p : α → Bool} {xs ys : List α} {y : α}
    (h : ∀ x ∈ xs, p x = true) (hy : p y = false) :
    (xs ++ y :: ys).takeWhile p = xs ∧ (xs ++ y :: ys).dropWhile p = y :: ys := by
  induction xs with
  | nil => simp [List.takeWhile, List.dropWhile, hy]
  | cons a l ih =>
    have ha := h a (List.mem_cons_self a l)
    have ih2 := ih fun x hx => h x (List.mem_cons_of_mem a hx)
    simp only [List.cons_append, List.takeWhile, List.dropWhile, ha]
    exact ⟨congrArg (a :: ·) ih2.1, ih2.2⟩

/-! ### The content loop: fuel irrelevance and step equations -/

theorem parseContentF_nil (fuel : Nat) (bs : List BulletItem) :
    parseContentF fuel [] bs = flush bs [] := by
  cases fuel <;> rfl

theorem parseContentF_congr :
    ∀ (f1 f2 : Nat) (lines : List (List Char)) (bs : List BulletItem),
      lines.length ≤ f1 → lines.length ≤ f2 →
      parseContentF f1 lines bs = parseContentF f2 lines bs := by
  intro f1
  induction f1 with
  | zero =>
    intro f2 lines bs h1 h2
    cases lines with
    | nil => rw [parseContentF_nil, parseContentF_nil]
    | cons l rest => simp at h1
  | succ f ih =>
    intro f2 lines bs h1 h2
    cases lines with
    | nil => rw [parseContentF_nil, parseContentF_nil]
    | cons l rest =>
      cases f2 with
      | zero => simp at h2
      | succ f2' =>
        simp only [List.length_cons, Nat.add_le_add_iff_right] at h1 h2
        have hlen : ((rest.dropWhile (fun l2 => !startsFence (trimL l2))).drop 1).length ≤
            rest.length := by
          have := dropWhile_length_le (fun l2 => !startsFence (trimL l2)) rest
          rw [List.length_drop]
          omega
        have hr : ∀ bs', parseContentF f rest bs' = parseContentF f2' rest bs' :=
          fun bs' => ih f2' rest bs' h1 h2
        have hr2 : ∀ bs',
            parseContentF f ((rest.dropWhile (fun l2 => !startsFence (trimL l2))).drop 1) bs' =
            parseContentF f2' ((rest.dropWhile (fun l2 => !startsFence (trimL l2))).drop 1) bs' :=
          fun bs' => ih f2' _ bs' (le_trans hlen h1) (le_trans hlen h2)
        simp only [parseContentF]
        simp only [hr, hr2]

theorem parseContent_nil (bs : List BulletItem) : parseContent [] bs = flush bs [] := rfl

theorem parseContent_cons (l : List Char) (rest : List (List Char)) (bs : List BulletItem) :
    parseContent (l :: rest) bs =
      if trimL l = [] then flush bs (parseContent rest [])
      else
        match matchImage (trimL l) with
        | some (alt, src) => flush bs (ContentBlock.image alt src :: parseContent rest [])
        | none =>
          match matchBullet l with
          | some (lvl, txt) => parseContent rest (bs ++ [⟨txt, lvl⟩])
          | none =>
            if startsFence (trimL l) then
              flush bs (ContentBlock.code (fenceLang (trimL l))
                  (joinNl (rest.takeWhile (fun l2 => !startsFence (trimL l2))))
                :: parseContent ((rest.dropWhile (fun l2 => !startsFence (trimL l2))).drop 1) [])
            else flush bs (ContentBlock.text (trimL l) :: parseContent rest []) := by
  have hlen : ((rest.dropWhile (fun l2 => !startsFence (trimL l2))).drop 1).length ≤
      rest.length := by
    have := dropWhile_length_le (fun l2 => !startsFence (trimL l2)) rest
    rw [List.length_drop]
    omega
  have hr2 : parseContentF rest.length
      ((rest.dropWhile (fun l2 => !startsFence (trimL l2))).drop 1) [] =
      parseContent ((rest.dropWhile (fun l2 => !startsFence (trimL l2))).drop 1) [] :=
    parseContentF_congr _ _ _ _ hlen le_rfl
  show parseContentF (rest.length + 1) (l :: rest) bs = _
  simp only [parseContentF]
  rw [hr2]
  rfl

theorem mem_flush {c : ContentBlock} {bs : List BulletItem} {k : List ContentBlock}
    (h : c ∈ flush bs k) : (bs ≠ [] ∧ c = ContentBlock.bullets bs) ∨ c ∈ k := by
  unfold flush at h
  split at h
  · exact Or.inr h
  · rcases List.mem_cons.mp h with h2 | h2
    · exact Or.inl ⟨by assumption, h2⟩
    · exact Or.inr h2

/-! ### Lines, joining and separator splitting -/

theorem splitLines_ne_nil (x : List Char) : splitLines x ≠ [] := by
  cases x with
  | nil => simp [splitLines]
  | cons c rest =>
    unfold splitLines
    split
    · simp
    · split <;> simp

theorem splitLines_append (x y : List Char) :
    splitLines (x ++ '\n' :: y) = splitLines x ++ splitLines y := by
  induction x with
  | nil => simp [splitLines]
  | cons c rest ih =>
    by_cases hc : c = '\n'
    · subst hc
      show [] :: splitLines (rest ++ '\n' :: y) = ([] :: splitLines rest) ++ splitLines y
      rw [ih]
      rfl
    · simp only [List.cons_append, splitLines, if_neg hc, List.append_eq]
      rw [ih]
      cases h : splitLines rest with
      | nil => exact absurd h (splitLines_ne_nil rest)
      | cons l ls => simp

theorem joinNl_splitLines (x : List Char) : joinNl (splitLines x) = x := by
  induction x with
  | nil => rfl
  | cons c rest ih =>
    by_cases hc : c = '\n'
    · subst hc
      simp only [splitLines, if_pos rfl]
      cases h : splitLines rest with
      | nil => exact absurd h (splitLines_ne_nil rest)
      | cons l ls =>
        rw [h] at ih
        simp only [joinNl, List.nil_append]
        rw [ih]
    · simp only [splitLines, if_neg hc]
      cases h : splitLines rest with
      | nil => exact absurd h (splitLines_ne_nil rest)
      | cons l ls =>
        rw [h] at ih
        cases ls with
        | nil => simp only [joinNl] at ih ⊢; rw [ih]
        | cons l2 ls2 =>
          simp only [joinNl, List.cons_append] at ih ⊢
          rw [ih]

theorem splitSep_ne_nil (L : List (List Char)) : splitSep L ≠ [] := by
  cases L with
  | nil => simp [splitSep]
  | cons l rest =>
    unfold splitSep
    split
    · simp
    · split <;> simp

theorem splitSep_append_sep (X Z : List (List Char)) :
    splitSep (X ++ sepLine :: Z) = splitSep X ++ splitSep Z := by
  induction X with
  | nil => simp [splitSep]
  | cons l rest ih =>
    by_cases hl : l = sepLine
    · subst hl
      show [] :: splitSep (rest ++ sepLine :: Z) = ([] :: splitSep rest) ++ splitSep Z
      rw [ih]
      rfl
    · simp only [List.cons_append, splitSep, if_neg hl, List.append_eq]
      rw [ih]
      cases h : splitSep rest with
      | nil => exact absurd h (splitSep_ne_nil rest)
      | cons g gs => simp

theorem splitSep_no_sep {L : List (List Char)} (h : ∀ l ∈ L, l ≠ sepLine) :
    splitSep L = [L] := by
  induction L with
  | nil => rfl
  | cons l rest ih =>
    simp only [splitSep, if_neg (h l (List.mem_cons_self l rest))]
    rw [ih fun x hx => h x (List.mem_cons_of_mem l hx)]

/-! ### Trimming -/

theorem rtrim_eq_nil_iff {x : List Char} : rtrim x = [] ↔ ∀ c ∈ x, isWs c = true := by
  induction x with
  | nil => simp [rtrim]
  | cons c rest ih =>
    unfold rtrim
    cases h : rtrim rest with
    | nil =>
      have hall := ih.mp h
      by_cases hw : isWs c
      · simp only [if_pos hw]
        simp only [List.mem_cons, true_iff]
        intro a ha
        rcases ha with rfl | ha
        · exact hw
        · exact hall a ha
      · simp only [if_neg hw]
        simp only [List.mem_cons]
        constructor
        · intro habs; exact absurd habs (by simp)
        · intro hmem; exact absurd (hmem c (Or.inl rfl)) hw
    | cons r rs =>
      simp only [List.mem_cons]
      constructor
      · intro habs; exact absurd habs (by simp)
      · intro hmem
        have : rtrim rest = [] := ih.mpr fun a ha => hmem a (Or.inr ha)
        rw [this] at h
        exact absurd h (by simp)

theorem mem_of_mem_dropWhile {α : Type} {p : α → Bool} {x : α} {l : List α}
    (h : x ∈ l.dropWhile p) : x ∈ l := by
  induction l with
  | nil => simp [List.dropWhile] at h
  | cons a rest ih =>
    by_cases hp : p a
    · simp only [List.dropWhile, hp] at h
      exact List.mem_cons_of_mem a (ih h)
    · simp only [List.dropWhile, hp] at h
      simpa using h

theorem mem_takeWhile_ws {x : Char} {l : List Char} (h : x ∈ l.takeWhile isWs) :
    isWs x = true := by
  induction l with
  | nil => simp [List.takeWhile] at h
  | cons a rest ih =>
    by_cases hp : isWs a
    · simp only [List.takeWhile, hp] at h
      rcases List.mem_cons.mp h with rfl | h2
      · exact hp
      · exact ih h2
    · simp only [List.takeWhile, hp] at h
      simp at h

theorem trimL_eq_nil_iff {x : List Char} : trimL x = [] ↔ ∀ c ∈ x, isWs c = true := by
  unfold trimL
  rw [rtrim_eq_nil_iff]
  constructor
  · intro h c hc
    rw [← List.takeWhile_append_dropWhile (p := isWs) (l := x)] at hc
    rcases List.mem_append.mp hc with h2 | h2
    · exact mem_takeWhile_ws h2
    · exact h c h2
  · intro h c hc
    exact h c (mem_of_mem_dropWhile hc)

theorem rtrim_head {x : List Char} {c : Char} {y : List Char} (h : rtrim x = c :: y) :
    ∃ z, x = c :: z := by
  cases x with
  | nil => simp [rtrim] at h
  | cons a rest =>
    rw [show rtrim (a :: rest) = match rtrim rest with
          | [] => if isWs a = true then [] else [a]
          | r => a :: r from rfl] at h
    by_cases hr : rtrim rest = []
    · rw [hr] at h
      have h' : (if isWs a = true then [] else [a]) = c :: y := h
      split at h'
      · exact absurd h'.symm (List.cons_ne_nil c y)
      · injection h' with h1 h3
        exact ⟨rest, by rw [h1]⟩
    · obtain ⟨r, rs, h2⟩ : ∃ r rs, rtrim rest = r :: rs := by
        cases h3 : rtrim rest with
        | nil => exact absurd h3 hr
        | cons r rs => exact ⟨r, rs, rfl⟩
      rw [h2] at h
      have h' : a :: r :: rs = c :: y := h
      injection h' with h1 h3
      exact ⟨rest, by rw [h1]⟩

theorem trimL_head {x : List Char} {c : Char} {y : List Char} (h : trimL x = c :: y) :
    ∃ z, x.dropWhile isWs = c :: z :=
  rtrim_head h

/-! ### Matcher facts -/

theorem startsFence_shape {t : List Char} (h : startsFence t = true) :
    ∃ u, t = '\x60' :: '\x60' :: '\x60' :: u := by
  unfold startsFence at h
  rw [beq_iff_eq] at h
  match t, h with
  | [], h => exact absurd h (by simp [fenceMarker, List.take])
  | [a], h => exact absurd h (by simp [fenceMarker, List.take])
  | [a, b], h => exact absurd h (by simp [fenceMarker, List.take])
  | a :: b :: d :: u, h =>
    simp only [List.take, fenceMarker, List.cons.injEq, and_true] at h
    obtain ⟨h1, h2, h3⟩ := h
    exact ⟨u, by rw [h1, h2, h3]⟩

theorem matchImage_fence (u : List Char) :
    matchImage ('\x60' :: u) = none := rfl

theorem matchBullet_of_head {l : List Char} {c : Char} {z : List Char}
    (hd : l.dropWhile isWs = c :: z) (hc1 : c ≠ '-') (hc2 : c ≠ '*') :
    matchBullet l = none := by
  unfold matchBullet
  rw [hd]
  match z with
  | [] => rfl
  | [d] => rfl
  | d :: e :: z2 =>
    exact if_neg (by rintro ⟨h1 | h1, _⟩; exacts [hc1 h1, hc2 h1])

theorem matchBullet_level {l : List Char} {lvl : Nat} {txt : List Char}
    (h : matchBullet l = some (lvl, txt)) :
    lvl = (l.takeWhile isWs).length / 2 := by
  unfold matchBullet at h
  split at h
  · split at h
    · injection h with h1
      exact ((Prod.mk.injEq _ _ _ _ ▸ h1).1).symm
    · exact Option.noConfusion h
  · exact Option.noConfusion h

/-! ### Title scan and slide provenance -/

theorem findTitle_eq_nil {lines : List (List Char)}
    (h : ∀ l ∈ lines, matchH1 (trimL l) = none) : (findTitle lines).1 = [] := by
  induction lines with
  | nil => rfl
  | cons l rest ih =>
    unfold findTitle
    rw [h l (List.mem_cons_self l rest)]
    show (if trimL l = [] then findTitle rest else ([], l :: rest)).1 = []
    split
    · exact ih fun x hx => h x (List.mem_cons_of_mem l hx)
    · rfl

theorem slides_are_parseSlideBlock {text : List Char} {s : Slide}
    (h : s ∈ (parseOutline text).slides) : ∃ b, s = parseSlideBlock b := by
  unfold parseOutline at h
  split at h
  · simp at h
  · simp only [List.mem_map] at h
    obtain ⟨b, _, hb⟩ := h
    exact ⟨b, hb.symm⟩

/-! ### The bullet-list invariant of the content loop -/

theorem parseContentF_bullets_inv :
    ∀ (fuel : Nat) (lines : List (List Char)) (bs : List BulletItem)
      (items : List BulletItem),
      ContentBlock.bullets items ∈ parseContentF fuel lines bs →
      (∀ it ∈ bs, ∃ l, matchBullet l = some (it.level, it.text)) →
      items ≠ [] ∧ ∀ it ∈ items, ∃ l, matchBullet l = some (it.level, it.text) := by
  intro fuel
  induction fuel with
  | zero =>
    intro lines bs items h hbs
    have h2 : ContentBlock.bullets items ∈ flush bs [] := by
      cases lines with
      | nil => rwa [parseContentF_nil] at h
      | cons l rest => exact h
    rcases mem_flush h2 with ⟨hne, heq⟩ | h3
    · injection heq with he
      subst he
      exact ⟨hne, hbs⟩
    · simp at h3
  | succ f ih =>
    intro lines bs items h hbs
    cases lines with
    | nil =>
      rw [parseContentF_nil] at h
      rcases mem_flush h with ⟨hne, heq⟩ | h3
      · injection heq with he
        subst he
        exact ⟨hne, hbs⟩
      · simp at h3
    | cons l rest =>
      simp only [parseContentF] at h
      split at h
      · rcases mem_flush h with ⟨hne, heq⟩ | h3
        · injection heq with he
          subst he
          exact ⟨hne, hbs⟩
        · exact ih rest [] items h3 (by simp)
      · split at h
        · rcases mem_flush h with ⟨hne, heq⟩ | h3
          · injection heq with he
            subst he
            exact ⟨hne, hbs⟩
          · rcases List.mem_cons.mp h3 with h4 | h4
            · exact absurd h4 (by simp)
            · exact ih rest [] items h4 (by simp)
        · split at h
          · next lvl txt heq2 =>
            refine ih rest (bs ++ [⟨txt, lvl⟩]) items h ?_
            intro it hit
            rcases List.mem_append.mp hit with h5 | h5
            · exact hbs it h5
            · rcases List.mem_cons.mp h5 with rfl | h6
              · exact ⟨l, heq2⟩
              · simp at h6
          · split at h
            · rcases mem_flush h with ⟨hne, heq⟩ | h3
              · injection heq with he
                subst he
                exact ⟨hne, hbs⟩
              · rcases List.mem_cons.mp h3 with h4 | h4
                · exact absurd h4 (by simp)
                · exact ih _ [] items h4 (by simp)
            · rcases mem_flush h with ⟨hne, heq⟩ | h3
              · injection heq with he
                subst he
                exact ⟨hne, hbs⟩
              · rcases List.mem_cons.mp h3 with h4 | h4
                · exact absurd h4 (by simp)
                · exact ih rest [] items h4 (by simp)

/-! ### Claim theorems -/

/-- C2: `parse` applied to the exact string `# T\n\n---\n\n# S\n- a\n  - b\n- c`
returns a document titled `T`, with the subtitle unset (the parser's
default empty string), and exactly one slide titled `S` whose content is
one bullet list with items a at level 0, b at level 1, c at level 0, in
that order. -/
theorem parse_title_and_bullets_example :
    parse "# T\n\n---\n\n# S\n- a\n  - b\n- c" =
      ⟨"T".data, [], "minimal".data, 5,
        [⟨"S".data,
          [ContentBlock.bullets [⟨"a".data, 0⟩, ⟨"b".data, 1⟩, ⟨"c".data, 0⟩]]⟩]⟩ := by
  decide

/-- C9: `parse` applied to the empty string returns a document with no
slides and with title and subtitle unset (the parser's default empty
string). -/
theorem parse_empty_input :
    parse "" = ⟨[], [], "minimal".data, 5, []⟩ := by
  decide

/-- C3: for every input text, `parseOutline` terminates and returns a
well-formed document.  Termination and absence of exceptions are
captured by `parseOutline` being a total Lean function into `Document`
(the fuel of the content loop is its own line count, so no input is
rejected); well-formedness is the data-model invariant that no empty
bullet list is ever emitted. -/
theorem parseOutline_wellFormed : ∀ text : List Char, wellFormedDoc (parseOutline text) := by
  intro text s hs c hc items hceq
  obtain ⟨b, rfl⟩ := slides_are_parseSlideBlock hs
  subst hceq
  simp only [parseSlideBlock] at hc
  exact (parseContentF_bullets_inv _ _ _ _ hc (by simp)).1

/-- Witness for C3 at a concrete input. -/
theorem parseOutline_wellFormed_inst : wellFormedDoc (parse "- x") :=
  parseOutline_wellFormed "- x".data

/-- C8: every bullet item of every document produced by the parser comes
from a line matched by the bullet rule, and its level is the literal
count of leading whitespace characters of that un-trimmed line divided
by 2, floored (`level` is a `Nat`, hence never negative, and the
division is `Nat` division, i.e. floored with no tab normalization). -/
theorem bullet_level_from_indent :
    ∀ (text : List Char) (s : Slide) (c : ContentBlock) (items : List BulletItem)
      (it : BulletItem),
      s ∈ (parseOutline text).slides → c ∈ s.content →
      c = ContentBlock.bullets items → it ∈ items →
      ∃ l, matchBullet l = some (it.level, it.text) ∧
        it.level = (l.takeWhile isWs).length / 2 := by
  intro text s c items it hs hc hceq hit
  obtain ⟨b, rfl⟩ := slides_are_parseSlideBlock hs
  subst hceq
  simp only [parseSlideBlock] at hc
  obtain ⟨l, hl⟩ := (parseContentF_bullets_inv _ _ _ _ hc (by simp)).2 it hit
  exact ⟨l, hl, matchBullet_level hl⟩

/-- Witness for C8 at a concrete input: the nested bullet of
`- x\n  - y` has level 1 from its two leading spaces. -/
theorem bullet_level_from_indent_inst :
    ∃ l, matchBullet l = some (1, "y".data) ∧ 1 = (l.takeWhile isWs).length / 2 :=
  bullet_level_from_indent "- x\n  - y".data
    ⟨[], [ContentBlock.bullets [⟨"x".data, 0⟩, ⟨"y".data, 1⟩]]⟩
    (ContentBlock.bullets [⟨"x".data, 0⟩, ⟨"y".data, 1⟩])
    [⟨"x".data, 0⟩, ⟨"y".data, 1⟩] ⟨"y".data, 1⟩
    (by decide) (by decide) rfl (by decide)

theorem parseContent_cons_fence (l : List Char) (rest : List (List Char))
    (bs : List BulletItem) (hne : trimL l ≠ []) (himg : matchImage (trimL l) = none)
    (hbul : matchBullet l = none) (hf : startsFence (trimL l) = true) :
    parseContent (l :: rest) bs =
      flush bs (ContentBlock.code (fenceLang (trimL l))
          (joinNl (rest.takeWhile fun l2 => !startsFence (trimL l2)))
        :: parseContent ((rest.dropWhile fun l2 => !startsFence (trimL l2)).drop 1) []) := by
  rw [parseContent_cons, if_neg hne, himg, hbul, if_pos hf]

/-- C6: when a line whose trimmed form starts with three backticks is
encountered (such a line can match neither the image nor the bullet
rule, which is proved, not assumed), all subsequent raw lines are
consumed verbatim until a line whose trimmed form starts with three
backticks (first conjunct) or the end of the block (second conjunct);
the trimmed text after the opening fence is the language, defaulting to
the literal `text` when empty (`fenceLang`); an unterminated fence still
yields a `CodeBlock` holding everything remaining, and no error exists
(the function is total). -/
theorem parseContent_fence (bs : List BulletItem) (openL closeL : List Char)
    (codeLines rest2 : List (List Char))
    (hOpen : startsFence (trimL openL) = true)
    (hCode : ∀ cl ∈ codeLines, startsFence (trimL cl) = false)
    (hClose : startsFence (trimL closeL) = true) :
    parseContent (openL :: (codeLines ++ closeL :: rest2)) bs =
      flush bs (ContentBlock.code (fenceLang (trimL openL)) (joinNl codeLines)
        :: parseContent rest2 []) ∧
    parseContent (openL :: codeLines) bs =
      flush bs [ContentBlock.code (fenceLang (trimL openL)) (joinNl codeLines)] := by
  obtain ⟨u, hu⟩ := startsFence_shape hOpen
  have hne : trimL openL ≠ [] := by rw [hu]; exact List.cons_ne_nil _ _
  have himg : matchImage (trimL openL) = none := by rw [hu]; exact matchImage_fence _
  have hbul : matchBullet openL = none := by
    obtain ⟨z, hz⟩ := trimL_head hu
    exact matchBullet_of_head hz (by decide) (by decide)
  have hq : ∀ cl ∈ codeLines, (!startsFence (trimL cl)) = true := by
    intro cl hcl
    simp [hCode cl hcl]
  have hqc : (!startsFence (trimL closeL)) = false := by simp [hClose]
  constructor
  · rw [parseContent_cons_fence _ _ _ hne himg hbul hOpen,
      (takeWhile_append_cons hq hqc).1, (takeWhile_append_cons hq hqc).2]
    rfl
  · rw [parseContent_cons_fence _ _ _ hne himg hbul hOpen,
      takeWhile_eq_self hq, dropWhile_eq_nil_of_all hq]
    rfl

/-- Witness for C6 at a concrete input, in both the closed and the
unterminated form, with the empty language tag defaulting to `text`. -/
theorem parseContent_fence_inst :
    (parseContent ["\x60\x60\x60".data, "x".data, "\x60\x60\x60".data] [] =
      [ContentBlock.code "text".data "x".data] ∧
    parseContent ["\x60\x60\x60".data, "x".data] [] =
      [ContentBlock.code "text".data "x".data]) :=
  ⟨((parseContent_fence [] "\x60\x60\x60".data "\x60\x60\x60".data ["x".data] []
      (by decide) (by decide) (by decide)).1).trans (by decide),
   ((parseContent_fence [] "\x60\x60\x60".data "\x60\x60\x60".data ["x".data] []
      (by decide) (by decide) (by decide)).2).trans (by decide)⟩

/-- C7: a blank line always flushes a pending bullet run into one
`BulletList` block when at least one item is pending, and otherwise
produces no block: processing a blank line prepends exactly the flushed
list (or nothing) and restarts the loop with an empty accumulation. -/
theorem parseContent_blank_flush (l : List Char) (rest : List (List Char))
    (bs : List BulletItem) (h : trimL l = []) :
    parseContent (l :: rest) bs =
      (if bs = [] then [] else [ContentBlock.bullets bs]) ++ parseContent rest [] := by
  rw [parseContent_cons, if_pos h]
  unfold flush
  split <;> simp

/-- Witness for C7: a bullet run interrupted by a blank line and then
resumed yields two separate `BulletList` blocks, not one merged list. -/
theorem parseContent_blank_flush_inst :
    parseContent [[], "- b".data] [⟨"a".data, 0⟩] =
      [ContentBlock.bullets [⟨"a".data, 0⟩], ContentBlock.bullets [⟨"b".data, 0⟩]] := by
  rw [parseContent_blank_flush _ _ _ (by decide)]
  decide

theorem parseOutline_eq_of_blocks_cons {text fb : List Char} {rbs : List (List Char)}
    (h : blocksOf text = fb :: rbs) :
    parseOutline text = ⟨docTitle fb, docSubtitle fb, themeName, 5,
      (if isTitleOnly fb then rbs else fb :: rbs).map parseSlideBlock⟩ := by
  unfold parseOutline
  rw [h]

theorem parseOutline_eq_of_blocks_nil {text : List Char} (h : blocksOf text = []) :
    parseOutline text = ⟨[], [], themeName, 5, []⟩ := by
  unfold parseOutline
  rw [h]

/-- C1 counterexample: on the input `# A\nworld`, whose single first
block is not title-only (the line `world` fails the heading pattern),
the parser nonetheless sets the document title to `A` from that block
(the source assigns `result.title`/`result.subtitle` before testing
`isTitleOnly`), while the block also becomes the first slide.  The claim
asserts the document-level title is not set from such a block. -/
theorem docTitle_set_despite_slide_first_block :
    isTitleOnly "# A\nworld".data = false ∧
    blocksOf "# A\nworld".data = ["# A\nworld".data] ∧
    (parse "# A\nworld").title = "A".data ∧
    (parse "# A\nworld").slides =
      [⟨"A".data, [ContentBlock.text "world".data]⟩] := by
  decide

/-- C1 amended: when the first raw block is not title-only, the block is
parsed as an ordinary slide block and becomes the first slide, but the
document-level title and subtitle are still extracted from the first
level-1 and level-2 heading lines of that block (empty when absent). -/
theorem parseOutline_first_block_not_title_only :
    ∀ (text fb : List Char) (rbs : List (List Char)),
      blocksOf text = fb :: rbs → isTitleOnly fb = false →
      (parseOutline text).title = docTitle fb ∧
      (parseOutline text).subtitle = docSubtitle fb ∧
      (parseOutline text).slides = parseSlideBlock fb :: rbs.map parseSlideBlock := by
  intro text fb rbs hb hnt
  rw [parseOutline_eq_of_blocks_cons hb, if_neg (by simp [hnt])]
  exact ⟨rfl, rfl, rfl⟩

/-- Witness for the amended C1 at a concrete input. -/
theorem parseOutline_first_block_not_title_only_inst :
    (parse "hi\n---\nyo").title = docTitle "hi".data ∧
    (parse "hi\n---\nyo").subtitle = docSubtitle "hi".data ∧
    (parse "hi\n---\nyo").slides =
      parseSlideBlock "hi".data :: List.map parseSlideBlock ["yo".data] :=
  parseOutline_first_block_not_title_only "hi\n---\nyo".data "hi".data ["yo".data]
    (by decide) (by decide)

/-- C10: for every input, the parser's document carries the fixed fields
`theme = "minimal"` and `timing.default = 5`; the `title`, `subtitle`
and slide `title` fields are always present (they are total fields of
`Document` and `Slide` in this embedding, as they are always-assigned
keys in the source) and are the empty string whenever no corresponding
heading is found: for a slide block with no level-1 heading line, for an
input with no blocks at all, and for a first block without a matching
heading line. -/
theorem parseOutline_fixed_fields :
    ∀ (text b : List Char),
      (∀ l ∈ splitLines b, matchH1 (trimL l) = none) →
      (parseOutline text).theme = "minimal".data ∧
      (parseOutline text).timingDefault = 5 ∧
      (parseSlideBlock b).title = [] ∧
      (blocksOf text = [] →
        (parseOutline text).title = [] ∧ (parseOutline text).subtitle = []) ∧
      (∀ fb rbs, blocksOf text = fb :: rbs →
        ((splitLines fb).findSome? matchH1 = none → (parseOutline text).title = []) ∧
        ((splitLines fb).findSome? matchH2 = none → (parseOutline text).subtitle = [])) := by
  intro text b hb
  refine ⟨?_, ?_, ?_, ?_, ?_⟩
  · cases h : blocksOf text with
    | nil => rw [parseOutline_eq_of_blocks_nil h]; rfl
    | cons fb rbs => rw [parseOutline_eq_of_blocks_cons h]; rfl
  · cases h : blocksOf text with
    | nil => rw [parseOutline_eq_of_blocks_nil h]
    | cons fb rbs => rw [parseOutline_eq_of_blocks_cons h]
  · show (findTitle (splitLines b)).1 = []
    exact findTitle_eq_nil hb
  · intro h
    rw [parseOutline_eq_of_blocks_nil h]
    exact ⟨rfl, rfl⟩
  · intro fb rbs h
    constructor
    · intro hnone
      rw [parseOutline_eq_of_blocks_cons h]
      show docTitle fb = []
      unfold docTitle
      rw [hnone]
      rfl
    · intro hnone
      rw [parseOutline_eq_of_blocks_cons h]
      show docSubtitle fb = []
      unfold docSubtitle
      rw [hnone]
      rfl

/-- Witness for C10 at a concrete input. -/
theorem parseOutline_fixed_fields_inst :
    (parseOutline "hello\nworld".data).theme = "minimal".data ∧
    (parseOutline "hello\nworld".data).timingDefault = 5 ∧
    (parseSlideBlock "plain".data).title = [] ∧
    (blocksOf "hello\nworld".data = [] →
      (parseOutline "hello\nworld".data).title = [] ∧
      (parseOutline "hello\nworld".data).subtitle = []) ∧
    (∀ fb rbs, blocksOf "hello\nworld".data = fb :: rbs →
      ((splitLines fb).findSome? matchH1 = none →
        (parseOutline "hello\nworld".data).title = []) ∧
      ((splitLines fb).findSome? matchH2 = none →
        (parseOutline "hello\nworld".data).subtitle = [])) :=
  parseOutline_fixed_fields "hello\nworld".data "plain".data (by decide)

theorem isEmpty_false_of_ne_nil {α : Type} {l : List α} (h : l ≠ []) :
    l.isEmpty = false := by
  cases l with
  | nil => exact absurd rfl h
  | cons a l2 => rfl

theorem mem_joinNl {c : Char} {ls : List (List Char)} (h : c ∈ joinNl ls) :
    c = '\n' ∨ ∃ l ∈ ls, c ∈ l := by
  induction ls with
  | nil => simp [joinNl] at h
  | cons l ls2 ih =>
    cases ls2 with
    | nil => exact Or.inr ⟨l, List.mem_cons_self l [], h⟩
    | cons l2 ls3 =>
      have h' : c ∈ l ++ '\n' :: joinNl (l2 :: ls3) := h
      rcases List.mem_append.mp h' with h2 | h2
      · exact Or.inr ⟨l, List.mem_cons_self l _, h2⟩
      · rcases List.mem_cons.mp h2 with rfl | h3
        · exact Or.inl rfl
        · rcases ih h3 with h4 | ⟨l4, hl4, hcl4⟩
          · exact Or.inl h4
          · exact Or.inr ⟨l4, List.mem_cons_of_mem l hl4, hcl4⟩

/-- C4 counterexample: the line `--- ` (three hyphens and a trailing
space) is not a separator for the source's `/^---$/m`: the `$` anchor
must immediately follow the hyphens, and a space is not a line
boundary.  So `a\n--- \nb` stays one single block and one slide, where
the claim's reading (whitespace-padded separator lines split) would
give two. -/
theorem blocksOf_no_split_on_padded_sep :
    blocksOf "a\n--- \nb".data = ["a\n--- \nb".data] ∧
    (parse "a\n--- \nb").slides.length = 1 := by
  decide

/-- C4 amended: slide segmentation splits on lines consisting of
exactly three hyphens — whitespace padding prevents the split (the
counterexample) — and in full ECMAScript semantics also at a `---`
immediately followed by a carriage return, since multiline anchors
match around every line terminator.  Restricted to segments of
carriage-return-free ASCII characters — the domain on which the
embedded segmentation coincides with the source, see `asciiNoCR` —
joining N+1 segments, each nonempty after trimming and containing no
separator line, with N lone `---` lines yields exactly those N+1
trimmed segments as blocks, in input order.  The `asciiNoCR` hypothesis
is not consumed by the proof over the embedding; it confines the
statement to inputs where the embedding is exact, excluding the CR and
Unicode-whitespace behaviours the embedding does not model. -/
theorem blocksOf_sepJoin :
    ∀ segs : List (List Char),
      (∀ s ∈ segs, (∀ c ∈ s, asciiNoCR c = true) ∧ trimL s ≠ [] ∧
        ∀ l ∈ splitLines s, l ≠ sepLine) →
      blocksOf (sepJoin segs) = segs.map trimL ∧
      (blocksOf (sepJoin segs)).length = segs.length := by
  have main : ∀ segs : List (List Char),
      (∀ s ∈ segs, (∀ c ∈ s, asciiNoCR c = true) ∧ trimL s ≠ [] ∧
        ∀ l ∈ splitLines s, l ≠ sepLine) →
      blocksOf (sepJoin segs) = segs.map trimL := by
    intro segs
    induction segs with
    | nil => intro h; rfl
    | cons s ss ih =>
      intro h
      obtain ⟨hascii, hts, hns⟩ := h s (List.mem_cons_self s ss)
      cases ss with
      | nil =>
        rw [show sepJoin [s] = s from rfl]
        unfold blocksOf
        rw [splitSep_no_sep hns]
        simp [joinNl_splitLines, List.filter, isEmpty_false_of_ne_nil hts]
      | cons s2 ss2 =>
        have hsplit : splitLines (sepJoin (s :: s2 :: ss2)) =
            splitLines s ++ sepLine :: splitLines (sepJoin (s2 :: ss2)) := by
          show splitLines (s ++ '\n' :: (sepLine ++ '\n' :: sepJoin (s2 :: ss2))) = _
          rw [splitLines_append, splitLines_append,
            show splitLines sepLine = [sepLine] from rfl]
          rfl
        have hih := ih (fun x hx => h x (List.mem_cons_of_mem s hx))
        unfold blocksOf at hih ⊢
        rw [hsplit, splitSep_append_sep, splitSep_no_sep hns, List.map_append,
          List.filter_append, hih]
        simp [joinNl_splitLines, List.filter, isEmpty_false_of_ne_nil hts]
  intro segs h
  refine ⟨main segs h, ?_⟩
  rw [main segs h, List.length_map]

/-- Witness for the amended C4 at a concrete input: one separator, two
nonempty ASCII segments, two blocks. -/
theorem blocksOf_sepJoin_inst :
    blocksOf (sepJoin ["a".data, "b".data]) = List.map trimL ["a".data, "b".data] ∧
    (blocksOf (sepJoin ["a".data, "b".data])).length = (["a".data, "b".data]).length :=
  blocksOf_sepJoin ["a".data, "b".data] (by decide)

/-- C5 counterexample: in `a\n---\n \n---\nb` the middle
separator-delimited block consists only of a blank line, and the parsed
document has exactly the two slides `a` and `b` — no slide with no
title and empty content is contributed, where the claim requires one. -/
theorem blank_block_contributes_no_slide :
    (parse "a\n---\n \n---\nb").slides =
      [⟨[], [ContentBlock.text "a".data]⟩, ⟨[], [ContentBlock.text "b".data]⟩] ∧
    (¬ ∃ s ∈ (parse "a\n---\n \n---\nb").slides, s.content = []) := by
  decide

/-- C5 amended: a separator-delimited segment consisting only of blank
lines is trimmed to the empty block and discarded during segmentation,
so it contributes no slide: the parse result equals that of the same
input with the blank segment and one adjacent separator removed. -/
theorem parseOutline_drops_blank_block :
    ∀ a s b : List Char,
      (∀ l ∈ splitLines s, trimL l = []) →
      parseOutline (a ++ '\n' :: (sepLine ++ '\n' :: (s ++ '\n' :: (sepLine ++ '\n' :: b)))) =
        parseOutline (a ++ '\n' :: (sepLine ++ '\n' :: b)) := by
  intro a s b h
  have hnosep : ∀ l ∈ splitLines s, l ≠ sepLine := by
    intro l hl hcontra
    have h2 := h l hl
    rw [hcontra] at h2
    exact absurd h2 (by decide)
  have hts : trimL s = [] := by
    rw [trimL_eq_nil_iff]
    intro c hc
    rw [← joinNl_splitLines s] at hc
    rcases mem_joinNl hc with rfl | ⟨l, hl, hcl⟩
    · decide
    · exact trimL_eq_nil_iff.mp (h l hl) c hcl
  have hb1 : blocksOf (a ++ '\n' :: (sepLine ++ '\n' :: (s ++ '\n' :: (sepLine ++ '\n' :: b)))) =
      blocksOf (a ++ '\n' :: (sepLine ++ '\n' :: b)) := by
    unfold blocksOf
    simp only [splitLines_append]
    rw [show splitLines sepLine = [sepLine] from rfl]
    simp only [List.singleton_append]
    rw [splitSep_append_sep, splitSep_append_sep, splitSep_no_sep hnosep,
      splitSep_append_sep]
    simp only [List.map_append, List.filter_append]
    simp [joinNl_splitLines, hts]
  unfold parseOutline
  rw [hb1]

/-- Witness for the amended C5 at a concrete input. -/
theorem parseOutline_drops_blank_block_inst :
    parseOutline ("a".data ++ '\n' :: (sepLine ++ '\n' ::
        (" ".data ++ '\n' :: (sepLine ++ '\n' :: "b".data)))) =
      parseOutline ("a".data ++ '\n' :: (sepLine ++ '\n' :: "b".data)) :=
  parseOutline_drops_blank_block "a".data " ".data "b".data (by decide)

end SlidesFactory
